import Mathlib

/-!
Verification of the ghrunner supervisor (shared-utils/ghrunner).

This file gives a shallow embedding of the program's core:

* the directory locator `searchRunnerDirs` (src/main.go, `filepath.WalkDir`
  with `filepath.SkipDir` on a marker match),
* the per-directory worker loop `runRunnerLoop` (StartCommand.runRunnerLoop:
  cleanup, launch in its own process group, select on cancellation vs natural
  exit, SIGINT then 30-second grace then SIGKILL),
* the supervisor entry point `StartCommand.Run` (WaitGroup fan-out/fan-in,
  first interrupt cancels, second interrupt force-exits via os.Exit(1)).

Filesystem trees are modelled as finite rose trees, paths as lists of path
components.  The worker loop is modelled as a trace semantics: the
environment's choices (when cancellation is observed, whether the child
process starts, exits, or survives the grace period) are an input event list,
and the loop's observable behaviour (directory removals, launches, signals,
waits, log lines, return) is the resulting action list, translated iteration
by iteration from the Go control flow.  The entry point's goroutine/WaitGroup
structure is modelled as a small-step transition system.
-/

namespace Ghrunner

/-! ## Directory locator (src/main.go, `searchRunnerDirs`, lines 87-103) -/

/-- Entry models one filesystem directory entry: a plain file, or a directory
with its (lexically ordered, as `filepath.WalkDir` visits them) children. -/
inductive Entry where
  | file (name : String)
  | dir (name : String) (children : List Entry)

/-- Name of a directory entry. -/
def Entry.name : Entry → String
  | .file n => n
  | .dir n _ => n

/-- Models `os.Stat(filepath.Join(path, "run.sh")) == nil`: the directory
directly contains an entry named `run.sh` (os.Stat succeeds on files and
directories alike). -/
def hasMarker (children : List Entry) : Bool :=
  children.any (fun e => e.name == "run.sh")

mutual

/-- Walk of a single entry whose path is `p ++ [e.name]`, translated from the
`filepath.WalkDir` callback in `searchRunnerDirs`: a directory that directly
contains the marker is appended to the result and the walk returns
`filepath.SkipDir` (no descent); otherwise the walk descends into the
children; files are never matched (`d.IsDir()` guard). -/
def walkEntry (p : List String) : Entry → List (List String)
  | .file _ => []
  | .dir n cs =>
    if hasMarker cs then [p ++ [n]]
    else walkChildren (p ++ [n]) cs

/-- Walk of a list of children of the directory at path `p`, in order. -/
def walkChildren (p : List String) : List Entry → List (List String)
  | [] => []
  | c :: rest => walkEntry p c ++ walkChildren p rest

end

/-- DiscoveryError models the error `searchRunnerDirs` returns when
`filepath.WalkDir` fails on the root (root unreadable or missing): the
callback receives a non-nil `err` for the root and returns it. -/
inductive DiscoveryError where
  | rootUnreadable
deriving DecidableEq

/-- searchRunnerDirs models the whole locator: a missing/unreadable root is a
`DiscoveryError`; otherwise the recursive walk runs and its result list is
returned (possibly empty). -/
def searchRunnerDirs (root : Option Entry) : Except DiscoveryError (List (List String)) :=
  match root with
  | none => .error .rootUnreadable
  | some t => .ok (walkEntry [] t)

mutual

/-- Paths on which the `WalkDir` callback is invoked when visiting one entry:
every visited file and directory; on a marker match `filepath.SkipDir` stops
the walk from ever invoking the callback below that directory. -/
def visitedEntry (p : List String) : Entry → List (List String)
  | .file n => [p ++ [n]]
  | .dir n cs =>
    if hasMarker cs then [p ++ [n]]
    else (p ++ [n]) :: visitedChildren (p ++ [n]) cs

/-- Paths visited below the directory at path `p`, child by child. -/
def visitedChildren (p : List String) : List Entry → List (List String)
  | [] => []
  | c :: rest => visitedEntry p c ++ visitedChildren p rest

end

/-- Models whether some entry of `cs` is named `s`. -/
def hasName (s : String) (cs : List Entry) : Bool :=
  cs.any (fun e => e.name == s)

mutual

/-- Well-formedness of a filesystem tree: sibling names are distinct at every
level (a real directory cannot hold two entries of the same name). -/
def Entry.wf : Entry → Bool
  | .file _ => true
  | .dir _ cs => namesNodup cs && wfList cs

/-- Sibling names of `cs` are pairwise distinct and every child is
well-formed. -/
def namesNodup : List Entry → Bool
  | [] => true
  | c :: rest => !(hasName c.name rest) && namesNodup rest

/-- Every entry of the list is a well-formed tree. -/
def wfList : List Entry → Bool
  | [] => true
  | c :: rest => c.wf && wfList rest

end

mutual

/-- Tree contains (at any depth, itself included) a directory that directly
holds the marker file. -/
def containsRunner : Entry → Bool
  | .file _ => false
  | .dir _ cs => hasMarker cs || listContainsRunner cs

/-- Some entry of the list contains a runner directory. -/
def listContainsRunner : List Entry → Bool
  | [] => false
  | c :: rest => containsRunner c || listContainsRunner rest

end

/-- Path `b` lies strictly inside directory `a`: `a` is a proper ancestor,
componentwise. -/
def strictDescendant (b a : List String) : Prop :=
  a <+: b ∧ b ≠ a

instance (b a : List String) : Decidable (strictDescendant b a) := by
  unfold strictDescendant
  infer_instance

/-! ## Worker loop (src/unnamed/part_002, `StartCommand.runRunnerLoop`, lines 69-137) -/

/-- IterEvent is the environment's choice for one iteration of the worker
loop: cancellation is already observed at the top-of-loop select;
`cmd.Start()` fails; the child exits naturally first (with or without error);
or cancellation wins the select while the child runs (`exitAfter` is how many
time units after the SIGINT the child would exit, `none` if it never would). -/
inductive IterEvent where
  | cancelledAtStart
  | startFails
  | procExits (exitErr : Bool)
  | cancelledDuringRun (exitAfter : Option Nat)
deriving DecidableEq

/-- Action is one observable step of the worker loop, in code order:
`os.RemoveAll(workDir)`, `cmd.Start()`, the failed-start log line,
`syscall.Kill(-pid, SIGINT)`, `syscall.Kill(-pid, SIGKILL)`, reaping the
child (`<-done`), the error log line, the restart log line, `return`. -/
inductive Action where
  | removeWork
  | startProc
  | reportStartFailure
  | sigintGroup
  | sigkillGroup
  | waitExit
  | reportExitError
  | logRestart
  | ret
deriving DecidableEq

/-- Grace period of `time.After(30 * time.Second)` in time units. -/
def gracePeriodSeconds : Nat := 30

/-- Whether the child's exit beats the grace-period timer in the inner
select (`case <-done` versus `case <-time.After(30 * time.Second)`). -/
def exitsWithinGrace : Option Nat → Bool
  | some t => decide (t < gracePeriodSeconds)
  | none => false

/-- runRunnerLoop translates `StartCommand.runRunnerLoop` iteration by
iteration.  Top of loop: a select on `ctx.Done()` with a `default` branch, so
an observed cancellation returns at once.  Then `os.RemoveAll(workDir)`,
then `cmd.Start()`; on start failure the loop logs and `continue`s.  Then a
select between `ctx.Done()` and `<-done`: natural exit leads to cleanup, an
optional error log, the restart log, and the next iteration; cancellation
leads to SIGINT to the process group, a wait bounded by the grace period,
SIGKILL to the group plus an unconditional wait if the child has not exited,
cleanup, and `return`.  Events after a terminal iteration are never
consumed. -/
def runRunnerLoop : List IterEvent → List Action
  | [] => []
  | .cancelledAtStart :: _ => [.ret]
  | .startFails :: rest =>
      .removeWork :: .startProc :: .reportStartFailure :: runRunnerLoop rest
  | .procExits err :: rest =>
      .removeWork :: .startProc :: .waitExit :: .removeWork ::
        ((if err then [Action.reportExitError] else []) ++ .logRestart :: runRunnerLoop rest)
  | .cancelledDuringRun t :: _ =>
      .removeWork :: .startProc :: .sigintGroup ::
        (if exitsWithinGrace t then [Action.waitExit, Action.removeWork, Action.ret]
         else [Action.sigkillGroup, Action.waitExit, Action.removeWork, Action.ret])

/-- Effect of one action on the scratch subdirectory's existence (`true` =
`_work` exists): a removal deletes it; while the child runs it may recreate
it, so reaping the child conservatively marks it as existing; nothing else
touches it. -/
def applyAction (b : Bool) (a : Action) : Bool :=
  if a = Action.removeWork then false
  else if a = Action.waitExit then true
  else b

/-- Checks that at every launch in the trace the scratch subdirectory is
absent, starting from an arbitrary initial state `b` (a prior crash may have
left `_work` behind). -/
def absentBeforeLaunch (b : Bool) : List Action → Bool
  | [] => true
  | a :: rest => (!(a == Action.startProc) || !b) && absentBeforeLaunch (applyAction b a) rest

/-- Checks that every reap of the child (natural exit or after a kill) is
immediately followed by removal of the scratch subdirectory. -/
def removedAfterExit : List Action → Bool
  | [] => true
  | a :: rest =>
      (!(a == Action.waitExit) || (rest.head? == some Action.removeWork)) && removedAfterExit rest

/-! ## Supervisor entry point (src/unnamed/part_002, `StartCommand.Run`, lines 20-67) -/

/-- Control position of the `Run` goroutine: inside the launch for-loop with
`launchedSoFar` goroutines already spawned; blocked on the first `<-sigCh`;
after `cancel()` blocked in `wg.Wait()` while the force-quit goroutine is
armed; returned normally; or terminated by `os.Exit(1)`. -/
inductive SupPhase where
  | launching (launchedSoFar : Nat)
  | waitingSignal
  | draining
  | returned
  | forceExited
deriving DecidableEq

/-- Supervisor state: control phase, the WaitGroup counter `active` (loops
launched and not yet `Done`), and the total number of `wg.Add(1)` calls. -/
structure SupState where
  phase : SupPhase
  active : Nat
  launched : Nat
deriving DecidableEq

/-- Initial state of `Run` once discovery has produced `n` directories. -/
def SupState.init : SupState := ⟨.launching 0, 0, 0⟩

/-- Small-step semantics of `StartCommand.Run` supervising `n` discovered
directories, interleaved with its worker-loop goroutines:

* `noRunners`: with zero discovered directories `Run` prints a notice and
  returns before launching anything (lines 27-30);
* `launch`: one turn of the for-loop, `wg.Add(1)` plus `go runRunnerLoop`
  (lines 43-49);
* `launchesDone`: the for-loop ends and `Run` blocks on `<-sigCh` (line 52);
* `loopExit`: some running worker-loop goroutine returns and its deferred
  `wg.Done()` fires; possible at any time while the process is alive;
* `firstSignal`: the first interrupt arrives, `Run` prints the notices, calls
  `cancel()`, arms the force-quit goroutine, and blocks in `wg.Wait()`
  (lines 52-62);
* `secondSignal`: a second interrupt arrives while draining; the force-quit
  goroutine calls `os.Exit(1)` no matter how many loops are still active;
* `wgWaitReturns`: `wg.Wait()` returns once the counter is zero and `Run`
  returns nil (lines 64-66). -/
inductive SupStep (n : Nat) : SupState → SupState → Prop
  | noRunners (h : n = 0) :
      SupStep n ⟨.launching 0, 0, 0⟩ ⟨.returned, 0, 0⟩
  | launch (i a l : Nat) (h : i < n) :
      SupStep n ⟨.launching i, a, l⟩ ⟨.launching (i + 1), a + 1, l + 1⟩
  | launchesDone (a l : Nat) (h : 0 < n) :
      SupStep n ⟨.launching n, a, l⟩ ⟨.waitingSignal, a, l⟩
  | loopExit (p : SupPhase) (a l : Nat) (h1 : p ≠ .returned) (h2 : p ≠ .forceExited) :
      SupStep n ⟨p, a + 1, l⟩ ⟨p, a, l⟩
  | firstSignal (a l : Nat) :
      SupStep n ⟨.waitingSignal, a, l⟩ ⟨.draining, a, l⟩
  | secondSignal (a l : Nat) :
      SupStep n ⟨.draining, a, l⟩ ⟨.forceExited, a, l⟩
  | wgWaitReturns (l : Nat) :
      SupStep n ⟨.draining, 0, l⟩ ⟨.returned, 0, l⟩

/-- Reachability from the start of `Run` (after discovery). -/
def Reachable (n : Nat) (s : SupState) : Prop :=
  Relation.ReflTransGen (SupStep n) SupState.init s

/-- Exit status of `os.Exit(1)` in the force-quit goroutine. -/
def forcedExitCode : Nat := 1

/-! ## Entry-point result and exit code (src/main.go `main`, lines 13-26, and
`StartCommand.Run`, lines 20-33 and 64-67) -/

/-- Error value returned by `StartCommand.Run`: the wrapped discovery error,
or nil.  A zero-runner discovery prints "No runners found, exiting" and
returns nil (line 29); a clean shutdown after `wg.Wait()` returns nil
(line 66). -/
def startCommandRunError (discovery : Except DiscoveryError (List (List String))) :
    Option DiscoveryError :=
  match discovery with
  | .error e => some e
  | .ok _ => none

/-- Process exit code of the supervisor entry point `main` (src/main.go):
`panic(err)` on a discovery error makes the Go runtime exit with status 2;
every other path (including the zero-runner early return, line 22, and the
normal return after all loops stop) exits with status 0. -/
def mainExitCode (discovery : Except DiscoveryError (List (List String))) : Nat :=
  match discovery with
  | .error _ => 2
  | .ok _ => 0

/-! ## Locator lemmas -/

theorem append_single_cancel {p : List String} {x y : String}
    (h : p ++ [x] = p ++ [y]) : x = y := by
  have h' := List.append_cancel_left h
  simpa using h'

theorem prefixes_same_length_eq {s t b : List String} (hs : s <+: b) (ht : t <+: b)
    (h : s.length = t.length) : s = t := by
  have h1 := List.prefix_of_prefix_length_le hs ht (Nat.le_of_eq h)
  exact h1.eq_of_length h

theorem hasName_iff (s : String) (cs : List Entry) :
    hasName s cs = true ↔ ∃ c ∈ cs, c.name = s := by
  simp [hasName, List.any_eq_true]

mutual

theorem walkEntry_anchored (p : List String) (e : Entry) :
    ∀ q ∈ walkEntry p e, (p ++ [e.name]) <+: q := by
  match e with
  | .file _ =>
    intro q hq
    simp [walkEntry] at hq
  | .dir n cs =>
    intro q hq
    by_cases h : hasMarker cs = true
    · simp [walkEntry, h] at hq
      simp [hq, Entry.name]
    · simp only [walkEntry, if_neg h] at hq
      rcases walkChildren_anchored (p ++ [n]) cs q hq with ⟨c, _, hpre⟩
      have hbase : (p ++ [Entry.name (.dir n cs)]) <+: ((p ++ [n]) ++ [c.name]) := by
        simp [Entry.name]
      exact hbase.trans hpre

theorem walkChildren_anchored (p : List String) (cs : List Entry) :
    ∀ q ∈ walkChildren p cs, ∃ c ∈ cs, (p ++ [c.name]) <+: q := by
  match cs with
  | [] =>
    intro q hq
    simp [walkChildren] at hq
  | c :: rest =>
    intro q hq
    simp only [walkChildren, List.mem_append] at hq
    rcases hq with hq | hq
    · exact ⟨c, List.mem_cons_self c rest, walkEntry_anchored p c q hq⟩
    · rcases walkChildren_anchored p rest q hq with ⟨c', hc', hpre⟩
      exact ⟨c', List.mem_cons_of_mem c hc', hpre⟩

end

mutual

theorem walkEntry_no_nest (p : List String) (e : Entry) (hw : Entry.wf e = true) :
    ∀ a ∈ walkEntry p e, ∀ b ∈ walkEntry p e, a <+: b → a = b := by
  match e with
  | .file _ =>
    intro a ha
    simp [walkEntry] at ha
  | .dir n cs =>
    intro a ha b hb hab
    by_cases h : hasMarker cs = true
    · simp [walkEntry, h] at ha hb
      rw [ha, hb]
    · simp only [walkEntry, if_neg h] at ha hb
      have hw' : namesNodup cs = true ∧ wfList cs = true := by
        simpa [Entry.wf, Bool.and_eq_true] using hw
      exact walkChildren_no_nest (p ++ [n]) cs hw'.1 hw'.2 a ha b hb hab

theorem walkChildren_no_nest (p : List String) (cs : List Entry)
    (hn : namesNodup cs = true) (hw : wfList cs = true) :
    ∀ a ∈ walkChildren p cs, ∀ b ∈ walkChildren p cs, a <+: b → a = b := by
  match cs with
  | [] =>
    intro a ha
    simp [walkChildren] at ha
  | c :: rest =>
    intro a ha b hb hab
    have hn' : hasName c.name rest = false ∧ namesNodup rest = true := by
      simpa [namesNodup, Bool.and_eq_true] using hn
    have hw' : Entry.wf c = true ∧ wfList rest = true := by
      simpa [wfList, Bool.and_eq_true] using hw
    simp only [walkChildren, List.mem_append] at ha hb
    rcases ha with ha | ha <;> rcases hb with hb | hb
    · exact walkEntry_no_nest p c hw'.1 a ha b hb hab
    · -- a under child c, b under a later sibling: the sibling would share c's name
      exfalso
      have hpa := walkEntry_anchored p c a ha
      rcases walkChildren_anchored p rest b hb with ⟨c', hc', hpb⟩
      have hpab : (p ++ [c.name]) <+: b := hpa.trans hab
      have heq : p ++ [c.name] = p ++ [c'.name] :=
        prefixes_same_length_eq hpab hpb (by simp)
      have hnm : c'.name = c.name := (append_single_cancel heq).symm
      have : hasName c.name rest = true := (hasName_iff c.name rest).mpr ⟨c', hc', hnm⟩
      simp [this] at hn'
    · -- a under a later sibling, b under child c: symmetric
      exfalso
      rcases walkChildren_anchored p rest a ha with ⟨c', hc', hpa⟩
      have hpb := walkEntry_anchored p c b hb
      have hpab : (p ++ [c'.name]) <+: b := hpa.trans hab
      have heq : p ++ [c'.name] = p ++ [c.name] :=
        prefixes_same_length_eq hpab hpb (by simp)
      have hnm : c'.name = c.name := append_single_cancel heq
      have : hasName c.name rest = true := (hasName_iff c.name rest).mpr ⟨c', hc', hnm⟩
      simp [this] at hn'
    · exact walkChildren_no_nest p rest hn'.2 hw'.2 a ha b hb hab

end

mutual

theorem walkEntry_eq_nil (p : List String) (e : Entry) (h : containsRunner e = false) :
    walkEntry p e = [] := by
  match e with
  | .file _ => simp [walkEntry]
  | .dir n cs =>
    have h' : hasMarker cs = false ∧ listContainsRunner cs = false := by
      simpa [containsRunner, Bool.or_eq_false_iff] using h
    have hstep : walkEntry p (.dir n cs) = walkChildren (p ++ [n]) cs := by
      simp [walkEntry, h'.1]
    rw [hstep]
    exact walkChildren_eq_nil (p ++ [n]) cs h'.2

theorem walkChildren_eq_nil (p : List String) (cs : List Entry)
    (h : listContainsRunner cs = false) : walkChildren p cs = [] := by
  match cs with
  | [] => simp [walkChildren]
  | c :: rest =>
    have h' : containsRunner c = false ∧ listContainsRunner rest = false := by
      simpa [listContainsRunner, Bool.or_eq_false_iff] using h
    simp [walkChildren, walkEntry_eq_nil p c h'.1, walkChildren_eq_nil p rest h'.2]

end


/-! ## Worker loop claims -/

/-- C1: for every worker-loop iteration in which cancellation is observed
while the child process is running, the loop delivers SIGINT to the child's
process group, waits at most the fixed 30-time-unit grace period, delivers
SIGKILL to the group and waits unconditionally if the child has not exited
by then, removes the scratch subdirectory, and returns; the iteration is the
loop's terminal exit and later events are never consumed, so no further
iterations occur. -/
theorem runRunnerLoop_cancel_while_running (t : Option Nat) (rest rest' : List IterEvent) :
    runRunnerLoop (.cancelledDuringRun t :: rest) =
      .removeWork :: .startProc :: .sigintGroup ::
        (if exitsWithinGrace t then [Action.waitExit, Action.removeWork, Action.ret]
         else [Action.sigkillGroup, Action.waitExit, Action.removeWork, Action.ret]) ∧
    gracePeriodSeconds = 30 ∧
    runRunnerLoop (.cancelledDuringRun t :: rest) =
      runRunnerLoop (.cancelledDuringRun t :: rest') ∧
    (runRunnerLoop (.cancelledDuringRun t :: rest)).count Action.startProc = 1 ∧
    (runRunnerLoop (.cancelledDuringRun t :: rest)).getLast? = some Action.ret := by
  refine ⟨rfl, rfl, rfl, ?_, ?_⟩ <;>
    rcases Bool.eq_false_or_eq_true (exitsWithinGrace t) with hg | hg <;>
      simp [runRunnerLoop, hg]

/-- C2: once cancellation has been observed the loop never starts another
execution attempt: observing cancellation at the top of an iteration returns
immediately with no launch at all, and an execution already running when
cancellation arrives is wound down with no further launch (exactly the one
launch that was already made appears in the whole remaining trace). -/
theorem runRunnerLoop_no_launch_after_cancel (rest : List IterEvent) (t : Option Nat) :
    runRunnerLoop (.cancelledAtStart :: rest) = [Action.ret] ∧
    (runRunnerLoop (.cancelledAtStart :: rest)).count Action.startProc = 0 ∧
    (runRunnerLoop (.cancelledDuringRun t :: rest)).count Action.startProc = 1 := by
  refine ⟨rfl, rfl, ?_⟩
  rcases Bool.eq_false_or_eq_true (exitsWithinGrace t) with hg | hg <;>
    simp [runRunnerLoop, hg]

/-- C5: for every event sequence and every initial state of the scratch
subdirectory (a prior crash may have left it behind), the scratch
subdirectory is absent immediately before every process launch, and every
reap of the child (natural exit or after a kill) is immediately followed by
its removal, so it exists, if at all, only strictly during an execution. -/
theorem runRunnerLoop_scratch_clean (evs : List IterEvent) (b : Bool) :
    absentBeforeLaunch b (runRunnerLoop evs) = true ∧
    removedAfterExit (runRunnerLoop evs) = true := by
  induction evs generalizing b with
  | nil => simp [runRunnerLoop, absentBeforeLaunch, removedAfterExit]
  | cons e rest ih =>
    cases e with
    | cancelledAtStart =>
      simp [runRunnerLoop, absentBeforeLaunch, removedAfterExit, applyAction]
    | startFails =>
      have h := ih false
      simp [runRunnerLoop, absentBeforeLaunch, removedAfterExit, applyAction, h.1, h.2]
    | procExits err =>
      have h := ih false
      cases err <;>
        simp [runRunnerLoop, absentBeforeLaunch, removedAfterExit, applyAction, h.1, h.2]
    | cancelledDuringRun t =>
      rcases Bool.eq_false_or_eq_true (exitsWithinGrace t) with hg | hg <;>
        simp [runRunnerLoop, absentBeforeLaunch, removedAfterExit, applyAction, hg]

/-- C5 witness: a concrete two-iteration run (one natural exit, then
cancellation between iterations) keeps the scratch subdirectory clean even
when it exists initially. -/
theorem runRunnerLoop_scratch_clean_witness :
    absentBeforeLaunch true
        (runRunnerLoop [IterEvent.procExits false, IterEvent.cancelledAtStart]) = true ∧
    removedAfterExit
        (runRunnerLoop [IterEvent.procExits false, IterEvent.cancelledAtStart]) = true :=
  runRunnerLoop_scratch_clean [IterEvent.procExits false, IterEvent.cancelledAtStart] true

/-- C9: an iteration whose launch fails reports the failure and continues
with the next iteration instead of returning; as long as the next observed
event is not a cancellation, the loop retries the launch, and the retry is
again preceded by the scratch-directory cleanup; if cancellation has been
requested by the next iteration, the loop returns instead. -/
theorem runRunnerLoop_launch_failure_retries (rest : List IterEvent) (e : IterEvent)
    (he : e = IterEvent.startFails ∨ ∃ er, e = IterEvent.procExits er) :
    runRunnerLoop (.startFails :: rest) =
      Action.removeWork :: Action.startProc :: Action.reportStartFailure ::
        runRunnerLoop rest ∧
    (∃ tail, runRunnerLoop (e :: rest) =
        Action.removeWork :: Action.startProc :: tail) ∧
    runRunnerLoop (IterEvent.startFails :: IterEvent.cancelledAtStart :: rest) =
      [Action.removeWork, Action.startProc, Action.reportStartFailure, Action.ret] := by
  refine ⟨rfl, ?_, rfl⟩
  rcases he with he | ⟨er, he⟩ <;> subst he
  · exact ⟨Action.reportStartFailure :: runRunnerLoop rest, rfl⟩
  · exact ⟨Action.waitExit :: Action.removeWork ::
      ((if er then [Action.reportExitError] else []) ++
        Action.logRestart :: runRunnerLoop rest), rfl⟩

/-- C9 witness: the launch-failure iteration at a concrete event list. -/
theorem runRunnerLoop_launch_failure_retries_witness :
    runRunnerLoop [IterEvent.startFails] =
      Action.removeWork :: Action.startProc :: Action.reportStartFailure ::
        runRunnerLoop [] ∧
    (∃ tail, runRunnerLoop [IterEvent.startFails] =
        Action.removeWork :: Action.startProc :: tail) ∧
    runRunnerLoop [IterEvent.startFails, IterEvent.cancelledAtStart] =
      [Action.removeWork, Action.startProc, Action.reportStartFailure, Action.ret] :=
  runRunnerLoop_launch_failure_retries [] IterEvent.startFails (Or.inl rfl)

/-! ## Supervisor claims -/

theorem reachable_sup_inv (n : Nat) (s : SupState) (h : Reachable n s) :
    s.active ≤ s.launched ∧ s.launched ≤ n ∧
    (∀ i, s.phase = SupPhase.launching i → s.launched = i) ∧
    ((s.phase = SupPhase.waitingSignal ∨ s.phase = SupPhase.draining ∨
      s.phase = SupPhase.returned ∨ s.phase = SupPhase.forceExited) → s.launched = n) ∧
    (s.phase = SupPhase.returned → s.active = 0) := by
  unfold Reachable at h
  induction h with
  | refl => simp [SupState.init]
  | tail hab step ih =>
    cases step with
    | noRunners h0 =>
      subst h0
      simp
    | launch i a l hlt =>
      obtain ⟨iha, ihl, ihph, -, -⟩ := ih
      dsimp only at iha ihl ihph ⊢
      have hl : l = i := ihph i rfl
      refine ⟨by omega, by omega, ?_, by simp, by simp⟩
      intro j hj
      have hj' : i + 1 = j := by simpa using hj
      omega
    | launchesDone a l hpos =>
      obtain ⟨iha, ihl, ihph, -, -⟩ := ih
      dsimp only at iha ihl ihph ⊢
      have hl : l = n := ihph n rfl
      exact ⟨iha, ihl, by simp, fun _ => hl, by simp⟩
    | loopExit p a l h1 h2 =>
      obtain ⟨iha, ihl, ihph, ihrest, -⟩ := ih
      dsimp only at iha ihl ihph ihrest ⊢
      refine ⟨by omega, ihl, ihph, ihrest, ?_⟩
      intro hp
      exact absurd hp h1
    | firstSignal a l =>
      obtain ⟨iha, ihl, -, ihrest, -⟩ := ih
      dsimp only at iha ihl ihrest ⊢
      have hl : l = n := ihrest (Or.inl rfl)
      exact ⟨iha, ihl, by simp, fun _ => hl, by simp⟩
    | secondSignal a l =>
      obtain ⟨iha, ihl, -, ihrest, -⟩ := ih
      dsimp only at iha ihl ihrest ⊢
      have hl : l = n := ihrest (Or.inr (Or.inl rfl))
      exact ⟨iha, ihl, by simp, fun _ => hl, by simp⟩
    | wgWaitReturns l =>
      obtain ⟨iha, ihl, -, ihrest, -⟩ := ih
      dsimp only at iha ihl ihrest ⊢
      have hl : l = n := ihrest (Or.inr (Or.inl rfl))
      exact ⟨Nat.zero_le l, ihl, by simp, fun _ => hl, fun _ => rfl⟩

/-- C3: for every discovered directory set of size `n ≥ 0`, every run of the
supervisor entry point launches at most one worker loop per directory while
the launch loop runs (after `i` turns exactly `i` are launched), every state
past the launch loop has exactly `n` launched, and in every state in which
`Run` has returned all `n` launched loops have signalled completion (the
WaitGroup counter is zero, so completions equal `n`). -/
theorem Run_launches_all_and_waits (n : Nat) (s : SupState) (h : Reachable n s) :
    (∀ i, s.phase = SupPhase.launching i → s.launched = i ∧ i ≤ n) ∧
    ((s.phase = SupPhase.waitingSignal ∨ s.phase = SupPhase.draining ∨
      s.phase = SupPhase.returned ∨ s.phase = SupPhase.forceExited) → s.launched = n) ∧
    (s.phase = SupPhase.returned →
      s.launched = n ∧ s.active = 0 ∧ s.launched - s.active = n) := by
  obtain ⟨ha, hl, hph, hrest, hret⟩ := reachable_sup_inv n s h
  refine ⟨fun i hi => ⟨hph i hi, ?_⟩, hrest, fun hr => ?_⟩
  · have := hph i hi
    omega
  · have h1 := hrest (Or.inr (Or.inr (Or.inl hr)))
    have h2 := hret hr
    exact ⟨h1, h2, by omega⟩

/-- C3 witness: with one discovered directory, a complete run (launch, signal,
loop completion, `wg.Wait`) reaches the returned state with one launched loop
and a drained WaitGroup. -/
theorem Run_launches_all_and_waits_witness :
    (∀ i, (⟨SupPhase.returned, 0, 1⟩ : SupState).phase = SupPhase.launching i →
      (⟨SupPhase.returned, 0, 1⟩ : SupState).launched = i ∧ i ≤ 1) ∧
    (((⟨SupPhase.returned, 0, 1⟩ : SupState).phase = SupPhase.waitingSignal ∨
      (⟨SupPhase.returned, 0, 1⟩ : SupState).phase = SupPhase.draining ∨
      (⟨SupPhase.returned, 0, 1⟩ : SupState).phase = SupPhase.returned ∨
      (⟨SupPhase.returned, 0, 1⟩ : SupState).phase = SupPhase.forceExited) →
      (⟨SupPhase.returned, 0, 1⟩ : SupState).launched = 1) ∧
    ((⟨SupPhase.returned, 0, 1⟩ : SupState).phase = SupPhase.returned →
      (⟨SupPhase.returned, 0, 1⟩ : SupState).launched = 1 ∧
      (⟨SupPhase.returned, 0, 1⟩ : SupState).active = 0 ∧
      (⟨SupPhase.returned, 0, 1⟩ : SupState).launched -
        (⟨SupPhase.returned, 0, 1⟩ : SupState).active = 1) := by
  have s1 : SupStep 1 SupState.init ⟨SupPhase.launching 1, 1, 1⟩ :=
    SupStep.launch 0 0 0 (by omega)
  have s2 : SupStep 1 ⟨SupPhase.launching 1, 1, 1⟩ ⟨SupPhase.waitingSignal, 1, 1⟩ :=
    SupStep.launchesDone 1 1 (by omega)
  have s3 : SupStep 1 ⟨SupPhase.waitingSignal, 1, 1⟩ ⟨SupPhase.draining, 1, 1⟩ :=
    SupStep.firstSignal 1 1
  have s4 : SupStep 1 ⟨SupPhase.draining, 1, 1⟩ ⟨SupPhase.draining, 0, 1⟩ :=
    SupStep.loopExit SupPhase.draining 0 1 (by simp) (by simp)
  have s5 : SupStep 1 ⟨SupPhase.draining, 0, 1⟩ ⟨SupPhase.returned, 0, 1⟩ :=
    SupStep.wgWaitReturns 1
  have hreach : Reachable 1 ⟨SupPhase.returned, 0, 1⟩ :=
    Relation.ReflTransGen.tail
      (Relation.ReflTransGen.tail
        (Relation.ReflTransGen.tail
          (Relation.ReflTransGen.tail
            (Relation.ReflTransGen.tail Relation.ReflTransGen.refl s1) s2) s3) s4) s5
  exact Run_launches_all_and_waits 1 ⟨SupPhase.returned, 0, 1⟩ hreach

/-- C4: a second interrupt received while the loops are still draining (the
cancellation signal has already been flipped) terminates the whole process in
a single step via `os.Exit(1)`, no matter how many worker loops are still
active and regardless of any grace-period countdown inside them, and the
terminated state admits no further step; the forced exit status is
non-zero. -/
theorem Run_second_signal_force_quits (n a l : Nat) :
    SupStep n ⟨SupPhase.draining, a, l⟩ ⟨SupPhase.forceExited, a, l⟩ ∧
    (∀ s' : SupState, ¬ SupStep n ⟨SupPhase.forceExited, a, l⟩ s') ∧
    forcedExitCode ≠ 0 := by
  refine ⟨SupStep.secondSignal a l, ?_, by simp [forcedExitCode]⟩
  intro s' hstep
  cases hstep with
  | loopExit p a l h1 h2 => exact h2 rfl

/-- C4 witness: with one loop still active (mid-drain, possibly mid-grace),
the second interrupt still steps straight to the terminated state, and the
terminated state has no step to the initial state. -/
theorem Run_second_signal_force_quits_witness :
    SupStep 1 ⟨SupPhase.draining, 1, 1⟩ ⟨SupPhase.forceExited, 1, 1⟩ ∧
    ¬ SupStep 1 ⟨SupPhase.forceExited, 1, 1⟩ SupState.init ∧
    forcedExitCode ≠ 0 :=
  ⟨(Run_second_signal_force_quits 1 1 1).1,
    (Run_second_signal_force_quits 1 1 1).2.1 SupState.init,
    (Run_second_signal_force_quits 1 1 1).2.2⟩

/-! ## Locator and exit-code claims -/

/-- C6 counterexample: an existing root with zero worker directories makes
discovery succeed with an empty result, `StartCommand.Run` return nil, and
the entry point exit with status 0 — not the non-zero exit code the claim
requires for a root that contains no workers. -/
theorem exit_code_empty_root_counterexample :
    searchRunnerDirs (some (Entry.dir "runners" [Entry.file "README.md"])) = .ok [] ∧
    mainExitCode (searchRunnerDirs (some (Entry.dir "runners" [Entry.file "README.md"]))) = 0 ∧
    startCommandRunError
        (searchRunnerDirs (some (Entry.dir "runners" [Entry.file "README.md"]))) = none := by
  refine ⟨?_, ?_, ?_⟩ <;> rfl

/-- C6 amended: the entry point exits with status 0 on clean shutdown after
all loops drain and also when the root exists but contains no workers (the
condition is only reported), and with a non-zero status exactly when
discovery fails; `StartCommand.Run` likewise returns an error only for a
discovery failure. -/
theorem exit_code_spec (e : DiscoveryError) (dirs : List (List String)) :
    mainExitCode (.error e) ≠ 0 ∧
    mainExitCode (.ok dirs) = 0 ∧
    startCommandRunError (.error e) = some e ∧
    startCommandRunError (.ok dirs) = none := by
  refine ⟨?_, rfl, rfl, rfl⟩
  simp [mainExitCode]

/-- C7: for every well-formed root tree (sibling names distinct, as on a real
filesystem), no path the locator returns is a strict descendant of another
returned path: the walk never descends below a matched directory. -/
theorem searchRunnerDirs_no_nesting (root : Entry) (hw : Entry.wf root = true)
    (dirs : List (List String)) (hd : searchRunnerDirs (some root) = .ok dirs) :
    ∀ a ∈ dirs, ∀ b ∈ dirs, ¬ strictDescendant b a := by
  intro a ha b hb hcon
  rcases hcon with ⟨hab, hne⟩
  have hdirs : walkEntry [] root = dirs := by
    simpa [searchRunnerDirs] using hd
  subst hdirs
  exact hne ((walkEntry_no_nest [] root hw a ha b hb hab).symm)

/-- C7 witness: a root with one worker directory and one deeper worker
directory in a sibling subtree; neither returned path is nested in the
other. -/
theorem searchRunnerDirs_no_nesting_witness :
    ¬ strictDescendant ["root", "b", "c"] ["root", "a"] := by
  have h := searchRunnerDirs_no_nesting
    (Entry.dir "root" [Entry.dir "a" [Entry.file "run.sh"],
      Entry.dir "b" [Entry.dir "c" [Entry.file "run.sh"]]])
    (by decide)
    [["root", "a"], ["root", "b", "c"]]
    rfl
  exact h ["root", "a"] (by simp) ["root", "b", "c"] (by simp)

/-- C8: discovery fails with a `DiscoveryError` exactly when the root is
unreadable or missing, while an existing root containing zero matching
directories yields the successful empty result, not an error. -/
theorem searchRunnerDirs_error_handling (t : Entry) (h : containsRunner t = false) :
    searchRunnerDirs none = .error DiscoveryError.rootUnreadable ∧
    searchRunnerDirs (some t) = .ok [] := by
  refine ⟨rfl, ?_⟩
  simp [searchRunnerDirs, walkEntry_eq_nil [] t h]

/-- C8 witness: a concrete existing root with files and a subdirectory but no
marker anywhere gives the empty result, and the missing root errors. -/
theorem searchRunnerDirs_error_handling_witness :
    searchRunnerDirs none = .error DiscoveryError.rootUnreadable ∧
    searchRunnerDirs
      (some (Entry.dir "root" [Entry.file "notes.txt",
        Entry.dir "sub" [Entry.file "data.bin"]])) = .ok [] :=
  searchRunnerDirs_error_handling
    (Entry.dir "root" [Entry.file "notes.txt", Entry.dir "sub" [Entry.file "data.bin"]])
    (by decide)

/-- C10: when the root directory itself directly contains the marker file,
the locator returns exactly the singleton sequence holding the root, and the
walk callback is invoked on no path beneath the root (the root is the only
visited path). -/
theorem searchRunnerDirs_root_match (n : String) (cs : List Entry)
    (h : hasMarker cs = true) :
    searchRunnerDirs (some (Entry.dir n cs)) = .ok [[n]] ∧
    visitedEntry [] (Entry.dir n cs) = [[n]] := by
  constructor
  · simp [searchRunnerDirs, walkEntry, h]
  · simp [visitedEntry, h]

/-- C10 witness: a root that holds the marker and a subdirectory that would
itself match is returned alone, and nothing beneath the root is visited. -/
theorem searchRunnerDirs_root_match_witness :
    searchRunnerDirs
      (some (Entry.dir "root" [Entry.file "run.sh",
        Entry.dir "sub" [Entry.file "run.sh"]])) = .ok [["root"]] ∧
    visitedEntry []
      (Entry.dir "root" [Entry.file "run.sh",
        Entry.dir "sub" [Entry.file "run.sh"]]) = [["root"]] :=
  searchRunnerDirs_root_match "root"
    [Entry.file "run.sh", Entry.dir "sub" [Entry.file "run.sh"]] (by decide)

end Ghrunner
